import Mathlib

/-!
Verification of the snapshot/holder-reconstruction engine of `tools/takeSnapshot.js`
(SankoTools repository).

The JavaScript code is shallowly embedded:
* JS objects (string-keyed, insertion-ordered) are modelled as association lists
  (`jget` / `jset` / `jdel` mirror property read, property write and `delete`):
  writing an existing key keeps its position, writing a fresh key appends at the end,
  which is exactly the enumeration-order behaviour of JS objects for
  non-integer-like keys such as addresses.
* JS `BigInt` values are modelled as `Int`, `number` token counts as `Int`
  (all counts arising in the program are far below 2^53, where `Number` is exact).
* `Array.prototype.sort`, which ECMAScript requires to be stable and — for a
  consistent comparator such as the one at line 440 — to sort according to it,
  is modelled by the stable `List.mergeSort`.
* `parseFloat` is modelled by an exact decimal-to-rational parser; IEEE-754
  rounding is not modelled (rounding can only merge more parsed values into
  ties, never separate equal ones, so the tie counterexample below is unaffected).
-/

namespace SankoSnapshot

/-! ### JS object model -/

/-- Property read `m[k]` of a JS object modelled as an association list. -/
def jget {K V : Type} [DecidableEq K] : List (K × V) → K → Option V
  | [], _ => none
  | p :: ps, k => if p.1 = k then some p.2 else jget ps k

/-- Property write `m[k] = v`: replaces the value in place if the key is present
(keeping its enumeration position), else appends the new key at the end. -/
def jset {K V : Type} [DecidableEq K] : List (K × V) → K → V → List (K × V)
  | [], k, v => [(k, v)]
  | p :: ps, k, v => if p.1 = k then (k, v) :: ps else p :: jset ps k v

/-- Property deletion `delete m[k]`. -/
def jdel {K V : Type} [DecidableEq K] : List (K × V) → K → List (K × V)
  | [], _ => []
  | p :: ps, k => if p.1 = k then jdel ps k else p :: jdel ps k

variable {K V : Type} [DecidableEq K]

@[simp] theorem jget_nil (k : K) : jget ([] : List (K × V)) k = none := rfl

@[simp] theorem jget_jset_self (m : List (K × V)) (k : K) (v : V) :
    jget (jset m k v) k = some v := by
  induction m with
  | nil => simp [jget, jset]
  | cons p ps ih =>
    by_cases h : p.1 = k
    · simp [jget, jset, h]
    · simp [jget, jset, h, ih]

@[simp] theorem jget_jset_ne (m : List (K × V)) (k k' : K) (v : V) (h : k' ≠ k) :
    jget (jset m k v) k' = jget m k' := by
  induction m with
  | nil => simp [jget, jset, Ne.symm h]
  | cons p ps ih =>
    by_cases hp : p.1 = k
    · simp [jget, jset, hp, Ne.symm h]
    · simp [jget, jset, hp, ih]

/-- Variant of `jget_jset_ne` with the disequality stated on the written key. -/
@[simp] theorem jget_jset_ne' (m : List (K × V)) (k k' : K) (v : V) (h : k ≠ k') :
    jget (jset m k v) k' = jget m k' := jget_jset_ne m k k' v (Ne.symm h)

@[simp] theorem jget_jdel_self (m : List (K × V)) (k : K) :
    jget (jdel m k) k = none := by
  induction m with
  | nil => simp [jget, jdel]
  | cons p ps ih =>
    by_cases h : p.1 = k
    · simp [jdel, h, ih]
    · simp [jget, jdel, h, ih]

@[simp] theorem jget_jdel_ne (m : List (K × V)) (k k' : K) (h : k' ≠ k) :
    jget (jdel m k) k' = jget m k' := by
  induction m with
  | nil => simp [jdel]
  | cons p ps ih =>
    by_cases hp : p.1 = k
    · simp [jget, jdel, hp, Ne.symm h, ih]
    · simp [jget, jdel, hp, ih]

/-- Re-writing a key with the value it already holds leaves the object unchanged. -/
theorem jset_same (m : List (K × V)) (k : K) (v : V) (h : jget m k = some v) :
    jset m k v = m := by
  induction m with
  | nil => simp [jget] at h
  | cons p ps ih =>
    obtain ⟨pk, pv⟩ := p
    by_cases hp : pk = k
    · subst hp
      simp only [jget, if_pos] at h
      obtain rfl : pv = v := by simpa using h
      simp [jset]
    · simp only [jget, hp, if_neg, not_false_iff] at h
      simp [jset, hp, ih h]

/-- Deleting an absent key leaves the object unchanged. -/
theorem jdel_of_none (m : List (K × V)) (k : K) (h : jget m k = none) :
    jdel m k = m := by
  induction m with
  | nil => rfl
  | cons p ps ih =>
    by_cases hp : p.1 = k
    · simp [jget, hp] at h
    · simp only [jget, hp, if_neg, not_false_iff] at h
      simp [jdel, hp, ih h]

theorem jget_mem {m : List (K × V)} {k : K} {v : V} (h : jget m k = some v) :
    (k, v) ∈ m := by
  induction m with
  | nil => simp [jget] at h
  | cons p ps ih =>
    obtain ⟨pk, pv⟩ := p
    by_cases hp : pk = k
    · subst hp
      simp only [jget, if_pos] at h
      obtain rfl : pv = v := by simpa using h
      simp
    · simp only [jget, hp, if_neg, not_false_iff] at h
      simp [ih h]

theorem jget_eq_none_iff {m : List (K × V)} {k : K} :
    jget m k = none ↔ k ∉ m.map Prod.fst := by
  induction m with
  | nil => simp [jget]
  | cons p ps ih =>
    by_cases hp : p.1 = k
    · simp [jget, hp]
    · simp [jget, hp, ih, Ne.symm hp]

/-! ### Decimal strings: `BigInt.prototype.toString`, `formatBigIntToDecimal`,
    and the `BigInt(String(balance).replace('.', ''))` loader (lines 134-140, 348-350). -/

/-- The decimal digit characters. -/
def digitChar : Nat → Char
  | 0 => '0' | 1 => '1' | 2 => '2' | 3 => '3' | 4 => '4'
  | 5 => '5' | 6 => '6' | 7 => '7' | 8 => '8' | _ => '9'

/-- Least-significant-first decimal digits of `n` (fuel-indexed so that the
kernel can evaluate it; `fuel > n` is always sufficient). -/
def natDigitsRev (fuel n : Nat) : List Nat :=
  match fuel with
  | 0 => []
  | f + 1 => if n < 10 then [n] else (n % 10) :: natDigitsRev f (n / 10)

/-- Most-significant-first decimal digits of `n`. -/
def natToDigitList (n : Nat) : List Nat := (natDigitsRev (n + 1) n).reverse

/-- Decimal representation of a natural number (JS `Number`/`BigInt` `toString`). -/
def natToString (n : Nat) : String := ⟨(natToDigitList n).map digitChar⟩

/-- Decimal representation of an integer (JS `BigInt.prototype.toString()` /
`String()` on an integral number). -/
def intToString (b : Int) : String :=
  if b < 0 then ⟨'-' :: ((natToDigitList (-b).toNat).map digitChar)⟩
  else natToString b.toNat

/-- JS `String.prototype.padStart(n, c)`. -/
def padStart (s : String) (n : Nat) (c : Char) : String :=
  ⟨List.replicate (n - s.length) c ++ s.data⟩

/-- The function `formatBigIntToDecimal` of `takeSnapshot.js` (lines 134-140): pad the decimal
representation to at least 19 characters and insert a decimal point before the
last 18 characters (`slice(0, -18)` / `slice(-18)`). -/
def formatBigIntToDecimal (bigIntValue : Int) : String :=
  let strValue := intToString bigIntValue
  let paddedValue := padStart strValue 19 '0'
  let integerPart := paddedValue.data.take (paddedValue.data.length - 18)
  let decimalPart := paddedValue.data.drop (paddedValue.data.length - 18)
  ⟨integerPart ++ '.' :: decimalPart⟩

/-- Remove the first occurrence of a character (JS `replace('.', '')` with a
string pattern replaces only the first occurrence). -/
def removeFirst (c : Char) : List Char → List Char
  | [] => []
  | x :: xs => if x = c then xs else x :: removeFirst c xs

/-- JS `s.replace('.', '')`. -/
def replaceDot (s : String) : String := ⟨removeFirst '.' s.data⟩

/-- Numeric value of most-significant-first digit characters. -/
def digitsToNat (cs : List Char) : Nat :=
  cs.foldl (fun a c => 10 * a + (c.toNat - 48)) 0

/-- JS `BigInt(string)` on a trimmed string: an optional single sign followed by
decimal digits (the empty string yields `0n`); anything else throws, modelled as
`none`.  (Hex/octal/binary prefixes never occur in this pipeline.) -/
def jsBigIntParse (s : String) : Option Int :=
  match s.data with
  | [] => some 0
  | c :: rest =>
    if c = '-' then
      if rest ≠ [] ∧ rest.all Char.isDigit then some (-(digitsToNat rest : Int)) else none
    else if c = '+' then
      if rest ≠ [] ∧ rest.all Char.isDigit then some (digitsToNat rest : Int) else none
    else if (c :: rest).all Char.isDigit then some (digitsToNat (c :: rest) : Int)
    else none

/-- The loader at line 349: `BigInt(String(balance).replace('.', ''))`, followed
by re-formatting with `formatBigIntToDecimal` (line 409): the fungible-balance
persist/reload round trip. -/
def snapshotRoundTrip (s : String) : Option String :=
  (jsBigIntParse (replaceDot s)).map formatBigIntToDecimal

/-- Holds (as `true`) iff everything after the first `'.'` is exactly 18 decimal digits. -/
def frac18 (s : String) : Bool :=
  let after := (s.data.dropWhile (fun c => c != '.')).drop 1
  after.length = 18 && after.all Char.isDigit

/-! ### Events and the three balance ledgers (lines 142-249). -/

/-- The constant `ethers.ZeroAddress`. -/
def zeroAddress : String := "0x0000000000000000000000000000000000000000"

/-- A fungible `Transfer(from, to, value)` event; `src`/`dst` model the JS
`from`/`to` fields (`from` is a Lean keyword), `value` the `uint256` amount
converted with `BigInt`. -/
structure TransferEvent where
  src : String
  dst : String
  value : Int
  deriving DecidableEq

/-- One iteration of the `transferEvents.forEach` loop of `getERC20Holders`
(lines 151-163): debit the sender and credit the receiver, skipping the zero
address; `if (!balances[x]) balances[x] = 0n` initialises absent entries. -/
def erc20Step (balances : List (String × Int)) (e : TransferEvent) : List (String × Int) :=
  let m1 := if e.src ≠ zeroAddress
    then jset balances e.src ((jget balances e.src).getD 0 - e.value)
    else balances
  if e.dst ≠ zeroAddress
    then jset m1 e.dst ((jget m1 e.dst).getD 0 + e.value)
    else m1

/-- The balance map computed by `getERC20Holders` from the fetched event list
(the network fetch is abstracted away; the fold is lines 151-163). -/
def getERC20Holders (transferEvents : List TransferEvent) : List (String × Int) :=
  transferEvents.foldl erc20Step []

/-- A non-fungible `Transfer(from, to, tokenId)` event. -/
structure NFTTransferEvent where
  src : String
  dst : String
  tokenId : Nat
  deriving DecidableEq

/-- One iteration of the `transferEvents.forEach` loop of `getERC721Holders`
(lines 177-181): `delete tokenOwners[tokenId]` on a non-zero sender, then
`tokenOwners[tokenId] = to` on a non-zero receiver; keys are `tokenId.toString()`. -/
def erc721Step (tokenOwners : List (String × String)) (e : NFTTransferEvent) :
    List (String × String) :=
  let key := natToString e.tokenId
  let o1 := if e.src ≠ zeroAddress then jdel tokenOwners key else tokenOwners
  if e.dst ≠ zeroAddress then jset o1 key e.dst else o1

/-- The `tokenOwners` map of `getERC721Holders` after replaying the events. -/
def erc721Owners (transferEvents : List NFTTransferEvent) : List (String × String) :=
  transferEvents.foldl erc721Step []

/-- The `holderCounts` loop of `getERC721Holders` (lines 183-188): count owned
ids per final owner. -/
def erc721Counts (tokenOwners : List (String × String)) : List (String × Int) :=
  tokenOwners.foldl (fun hc p => jset hc p.2 ((jget hc p.2).getD 0 + 1)) []

/-- Holder counts computed by `getERC721Holders` (lines 168-190). -/
def getERC721Holders (transferEvents : List NFTTransferEvent) : List (String × Int) :=
  erc721Counts (erc721Owners transferEvents)

/-- A `TransferSingle(operator, from, to, id, value)` event (the unused
`operator` field is omitted). -/
structure SingleTransferEvent where
  src : String
  dst : String
  id : Nat
  value : Int
  deriving DecidableEq

/-- A `TransferBatch(operator, from, to, ids, values)` event: parallel,
positionally corresponding arrays. -/
structure BatchTransferEvent where
  src : String
  dst : String
  ids : List Nat
  values : List Int
  deriving DecidableEq

/-- One iteration of the `singleTransferEvents.forEach` loop of
`getERC1155Holders` (lines 205-219): a per-address-per-id signed balance update,
skipping the zero address; inner maps are keyed by `id.toString()`. -/
def applyTransferSingle (balances : List (String × List (String × Int)))
    (e : SingleTransferEvent) : List (String × List (String × Int)) :=
  let idStr := natToString e.id
  let b1 := if e.src ≠ zeroAddress
    then
      let inner := (jget balances e.src).getD []
      jset balances e.src (jset inner idStr ((jget inner idStr).getD 0 - e.value))
    else balances
  if e.dst ≠ zeroAddress
    then
      let inner := (jget b1 e.dst).getD []
      jset b1 e.dst (jset inner idStr ((jget inner idStr).getD 0 + e.value))
    else b1

/-- One iteration of the inner `ids.forEach((id, index) => ...)` loop of the
`batchTransferEvents` handler (lines 223-237), for the positional pair
`iv = (ids[index], values[index])`. -/
def applyBatchPair (src dst : String) (balances : List (String × List (String × Int)))
    (iv : Nat × Int) : List (String × List (String × Int)) :=
  let idStr := natToString iv.1
  let b1 := if src ≠ zeroAddress
    then
      let inner := (jget balances src).getD []
      jset balances src (jset inner idStr ((jget inner idStr).getD 0 - iv.2))
    else balances
  if dst ≠ zeroAddress
    then
      let inner := (jget b1 dst).getD []
      jset b1 dst (jset inner idStr ((jget inner idStr).getD 0 + iv.2))
    else b1

/-- The `batchTransferEvents.forEach` body (lines 221-238): the positional pairs
of the `ids`/`values` arrays are processed left to right.  (`ids.zip values`
pairs `ids[index]` with `values[index]`; when `values` is longer the extra
entries are ignored exactly as by `ids.forEach`, and when it is shorter the JS
code throws, a case outside every claim considered here.) -/
def applyTransferBatch (balances : List (String × List (String × Int)))
    (e : BatchTransferEvent) : List (String × List (String × Int)) :=
  (e.ids.zip e.values).foldl (applyBatchPair e.src e.dst) balances

/-- The final collapse of `getERC1155Holders` (lines 240-246): sum all per-id
balances of an address into one scalar.  (In JS an address whose inner map is
empty would be skipped, but inner maps are never empty: an outer entry is only
ever created together with an id entry.) -/
def collapse1155 (balances : List (String × List (String × Int))) : List (String × Int) :=
  balances.map (fun p => (p.1, (p.2.map Prod.snd).sum))

/-- Balances computed by `getERC1155Holders` (lines 193-249): all
`TransferSingle` events are processed first, then all `TransferBatch` events,
then the per-id balances are collapsed. -/
def getERC1155Holders (singleTransferEvents : List SingleTransferEvent)
    (batchTransferEvents : List BatchTransferEvent) : List (String × Int) :=
  collapse1155
    (batchTransferEvents.foldl applyTransferBatch
      (singleTransferEvents.foldl applyTransferSingle []))

/-! ### The merge step of `main` (lines 424-437). -/

/-- One iteration of the `for (const [holder, balance] of Object.entries(holders))`
merge loop (lines 424-437): a nonzero, non-contract fresh balance overwrites the
prior entry (formatted by `fmt`, which is `formatBigIntToDecimal` for ERC-20 and
`Number` for the other standards); otherwise the entry is deleted. -/
def mergeStep {V : Type} (isContract : String → Bool) (fmt : Int → V)
    (existingHolders : List (String × V)) (e : String × Int) : List (String × V) :=
  if e.2 ≠ 0 ∧ isContract e.1 = false
    then jset existingHolders e.1 (fmt e.2)
    else jdel existingHolders e.1

/-- The whole merge loop: fold `mergeStep` over the freshly computed holders.
Addresses absent from the fresh computation are left untouched. -/
def mergeHolders {V : Type} (isContract : String → Bool) (fmt : Int → V)
    (existingHolders : List (String × V)) (holders : List (String × Int)) :
    List (String × V) :=
  holders.foldl (mergeStep isContract fmt) existingHolders

/-! ### The sort step of `main` (line 440). -/

/-- Exact-rational model of JS `parseFloat`: optional sign, integer digits,
optional fraction; parsing stops at the first unexpected character (`NaN`, which
never arises for the values this program persists, is modelled as `0`). -/
def jsParseFloatQ (s : String) : ℚ :=
  let step1 : Bool × List Char :=
    match s.data with
    | '-' :: rest => (true, rest)
    | '+' :: rest => (false, rest)
    | cs => (false, cs)
  let ip := step1.2.takeWhile Char.isDigit
  let rest := step1.2.dropWhile Char.isDigit
  let fp := match rest with
    | '.' :: r => r.takeWhile Char.isDigit
    | _ => []
  let q : ℚ := (digitsToNat ip : ℚ) + (digitsToNat fp : ℚ) / ((10 : ℚ) ^ fp.length)
  if step1.1 then -q else q

/-- The comparator of line 440, `(a, b) => parseFloat(b) - parseFloat(a)`,
as the ordering it induces: `x` may precede `y` iff `parse y ≤ parse x`.
`pval` abstracts `parseFloat` applied to the persisted value (parsing the
decimal string for fungible balances, the identity on numeric counts). -/
def holderLE {V : Type} (pval : V → ℚ) (x y : String × V) : Bool :=
  decide (pval y.2 ≤ pval x.2)

/-- Line 440, `Object.entries(existingHolders).sort((\[, a\], \[, b\]) => parseFloat(b) - parseFloat(a))`
(line 440).  ECMAScript requires `Array.prototype.sort` to be stable and, for a
consistent comparator, to produce an order sorted by it; `List.mergeSort` is
exactly such a stable sort. -/
def sortHolders {V : Type} (pval : V → ℚ) (entries : List (String × V)) :
    List (String × V) :=
  entries.mergeSort (holderLE pval)

/-- Parsed value of a fungible balance persisted as a decimal string. -/
def stringVal : String → ℚ := jsParseFloatQ

/-- Parsed value of a non-fungible holder count persisted as a JS number. -/
def countVal (n : Int) : ℚ := (n : ℚ)

/-! ### Event-log windows of `getPastEvents` (lines 116-132). -/

/-- The windowed fetch loop, fuel-indexed (`fuel ≥ toBlock + 1 - i` suffices):
`for (let i = fromBlock; i <= toBlock; i += 1000)` issues the inclusive window
`[i, min(i + 999, toBlock)]`. -/
def windowsFuel (fuel i toBlock : Nat) : List (Nat × Nat) :=
  match fuel with
  | 0 => []
  | f + 1 =>
    if i ≤ toBlock then (i, min (i + 999) toBlock) :: windowsFuel f (i + 1000) toBlock
    else []

/-- The block windows queried by `getPastEvents fromBlock toBlock`. -/
def windows (fromBlock toBlock : Nat) : List (Nat × Nat) :=
  windowsFuel (toBlock + 1 - fromBlock) fromBlock toBlock

/-- Tests whether `b` lies in one of the queried windows, i.e. events of block `b` are fetched. -/
def coveredB (ws : List (Nat × Nat)) (b : Nat) : Bool :=
  ws.any (fun w => decide (w.1 ≤ b) && decide (b ≤ w.2))

/-! ### Control flow of `main` (lines 332-470). -/

/-- The bookkeeping fields of a persisted snapshot file.  `deploymentBlock` is
`none` when the field is `null` or absent (a snapshot written after a failed
deployment scan persists `null`). -/
structure SnapshotFile where
  lastCheckedBlock : Nat
  deploymentBlock : Option Nat
  deriving DecidableEq

/-- The three recognised standards. -/
inductive TokenType | ERC20 | ERC721 | ERC1155
  deriving DecidableEq

/-- The environment a run of `main` observes: the cached snapshot (if the file
exists), the result of `verifyDeploymentBlock` on the cached block, the result
of `getDeploymentBlock` (`none` models its `null` not-found result), the CLI
flags, and the result of `detectContractType` (`none` models its `false`). -/
structure RunEnv where
  snapshot : Option SnapshotFile
  verifyOk : Bool
  scanResult : Option Nat
  refresh : Bool
  startingBlock : Nat
  currentBlock : Nat
  contractType : Option TokenType
  deriving DecidableEq

/-- Outcome of the control flow: whether the run aborts (the only throw modelled
is the unknown-token-type error of line 387), the `fromBlock` handed to the
fetch loop (`none` models the JS `null`, which the loop arithmetic coerces
to `0`), whether a snapshot is written, and the persisted `deploymentBlock`. -/
structure RunOutcome where
  aborted : Bool
  fromBlock : Option Nat
  wroteSnapshot : Bool
  outDeploymentBlock : Option Nat
  deriving DecidableEq

/-- JS truthiness of the cached `data.deploymentBlock` (line 353): `null`,
absent and `0` are all falsy. -/
def truthyOpt : Option Nat → Bool
  | none => false
  | some n => n != 0

/-- The `fromBlock` / `contractDeploymentBlock` resolution and the completion
behaviour of `main` (lines 341-470), as a pure function of the observed
environment.  On the happy path every branch reaches the `writeJsonSync` of
line 442; the only modelled abort is the classification failure. -/
def planRun (env : RunEnv) : RunOutcome :=
  let resolved : Option Nat × Option Nat :=
    match env.snapshot with
    | some data =>
      if truthyOpt data.deploymentBlock then
        if env.verifyOk then
          if env.refresh then (data.deploymentBlock, data.deploymentBlock)
          else (some data.lastCheckedBlock, data.deploymentBlock)
        else (some env.startingBlock, env.scanResult)
      else (some env.startingBlock, none)
    | none => (env.scanResult, env.scanResult)
  match env.contractType with
  | none =>
    { aborted := true, fromBlock := resolved.1, wroteSnapshot := false,
      outDeploymentBlock := resolved.2 }
  | some _ =>
    { aborted := false, fromBlock := resolved.1, wroteSnapshot := true,
      outDeploymentBlock := resolved.2 }

/-! ### Properties of the merge step -/

theorem mergeHolders_cons {V : Type} (isContract : String → Bool) (fmt : Int → V)
    (m : List (String × V)) (e : String × Int) (es : List (String × Int)) :
    mergeHolders isContract fmt m (e :: es) =
      mergeHolders isContract fmt (mergeStep isContract fmt m e) es := rfl

/-- Addresses absent from the fresh computation are carried forward untouched. -/
theorem jget_mergeHolders_notMem {V : Type} (isContract : String → Bool) (fmt : Int → V)
    (holders : List (String × Int)) (m : List (String × V)) (a : String)
    (ha : a ∉ holders.map Prod.fst) :
    jget (mergeHolders isContract fmt m holders) a = jget m a := by
  induction holders generalizing m with
  | nil => rfl
  | cons e es ih =>
    simp only [List.map_cons, List.mem_cons, not_or] at ha
    rw [mergeHolders_cons, ih _ ha.2]
    unfold mergeStep
    split
    · exact jget_jset_ne _ _ _ _ ha.1
    · exact jget_jdel_ne _ _ _ ha.1

/-- The fate of an address present in the fresh computation: kept (with the
formatted fresh balance) iff the fresh balance is nonzero and the address is
not a contract, deleted otherwise. -/
theorem jget_mergeHolders_mem {V : Type} (isContract : String → Bool) (fmt : Int → V)
    (holders : List (String × Int)) (m : List (String × V)) (a : String) (v : Int)
    (hnd : (holders.map Prod.fst).Nodup) (hv : jget holders a = some v) :
    jget (mergeHolders isContract fmt m holders) a =
      if v ≠ 0 ∧ isContract a = false then some (fmt v) else none := by
  induction holders generalizing m with
  | nil => simp [jget] at hv
  | cons e es ih =>
    obtain ⟨ek, ev⟩ := e
    simp only [List.map_cons, List.nodup_cons] at hnd
    by_cases hk : ek = a
    · subst hk
      simp only [jget, if_pos] at hv
      obtain rfl : ev = v := by simpa using hv
      rw [mergeHolders_cons, jget_mergeHolders_notMem _ _ _ _ _ hnd.1]
      by_cases hcond : ev ≠ 0 ∧ isContract ek = false
      · simp [mergeStep, hcond]
      · simp [mergeStep, hcond]
    · simp only [jget, hk, if_neg, not_false_iff] at hv
      rw [mergeHolders_cons, ih _ hnd.2 hv]

/-! ### C1: what the merge does to an address present in both maps -/

/-- C1, counterexample:  Prior snapshot: address `0xa` with balance 100
(stored as its 18-decimal string).  Fresh computation over the new range:
signed delta 5 for `0xa`, not a contract.  The claim says the persisted balance
is the prior balance combined with the fresh delta (105); the merge actually
overwrites with the fresh delta alone (5). -/
theorem c1_cex :
    jget (mergeHolders (fun _ => false) formatBigIntToDecimal
        [("0xa", formatBigIntToDecimal 100)] [("0xa", 5)]) "0xa"
      = some (formatBigIntToDecimal 5) ∧
    jget (mergeHolders (fun _ => false) formatBigIntToDecimal
        [("0xa", formatBigIntToDecimal 100)] [("0xa", 5)]) "0xa"
      ≠ some (formatBigIntToDecimal (100 + 5)) := by
  constructor
  · decide
  · decide

/-- C1, amended:  The merge step does not accumulate: for every address
present in the fresh computation with a nonzero, non-contract balance, the
persisted balance after the merge is the formatted fresh-range balance alone,
the prior snapshot balance being discarded; addresses absent from the fresh
computation keep their prior entry untouched.  (`hnd` holds for every fresh
computation, whose entries come from `Object.entries` of a JS object.) -/
theorem c1_merge_overwrite {V : Type} (isContract : String → Bool) (fmt : Int → V)
    (prior : List (String × V)) (fresh : List (String × Int))
    (hnd : (fresh.map Prod.fst).Nodup) :
    (∀ a v, jget fresh a = some v → v ≠ 0 → isContract a = false →
      jget (mergeHolders isContract fmt prior fresh) a = some (fmt v)) ∧
    (∀ a, jget fresh a = none →
      jget (mergeHolders isContract fmt prior fresh) a = jget prior a) := by
  constructor
  · intro a v hv h0 hc
    rw [jget_mergeHolders_mem _ _ _ _ _ _ hnd hv]
    simp [h0, hc]
  · intro a ha
    exact jget_mergeHolders_notMem _ _ _ _ _ (jget_eq_none_iff.mp ha)

/-- Witness for `c1_merge_overwrite` at the counterexample input. -/
theorem c1_merge_overwrite_wit :
    jget (mergeHolders (fun _ => false) formatBigIntToDecimal
        [("0xa", formatBigIntToDecimal 100)] [("0xa", 5)]) "0xa"
      = some (formatBigIntToDecimal 5) :=
  (c1_merge_overwrite (fun _ => false) formatBigIntToDecimal
      [("0xa", formatBigIntToDecimal 100)] [("0xa", 5)] (by decide)).1
    "0xa" 5 (by decide) (by decide) (by decide)

/-! ### C9: merge idempotence -/

/-- C9:  Merging the same fresh computation twice into a prior snapshot
produces exactly the same holder list (in particular the same persisted,
sorted output) as merging it once: the second pass re-writes every kept key
with the value it already holds and re-deletes keys that are already gone. -/
theorem c9_merge_idempotent {V : Type} (isContract : String → Bool) (fmt : Int → V)
    (prior : List (String × V)) (fresh : List (String × Int))
    (hnd : (fresh.map Prod.fst).Nodup) :
    mergeHolders isContract fmt (mergeHolders isContract fmt prior fresh) fresh
      = mergeHolders isContract fmt prior fresh := by
  induction fresh generalizing prior with
  | nil => rfl
  | cons e es ih =>
    simp only [List.map_cons, List.nodup_cons] at hnd
    have hM : mergeStep isContract fmt
        (mergeHolders isContract fmt (mergeStep isContract fmt prior e) es) e
        = mergeHolders isContract fmt (mergeStep isContract fmt prior e) es := by
      by_cases hcond : e.2 ≠ 0 ∧ isContract e.1 = false
      · have hstep : ∀ x : List (String × V),
            mergeStep isContract fmt x e = jset x e.1 (fmt e.2) :=
          fun x => by simp [mergeStep, hcond]
        simp only [hstep]
        apply jset_same
        rw [jget_mergeHolders_notMem _ _ _ _ _ hnd.1]
        exact jget_jset_self _ _ _
      · have hstep : ∀ x : List (String × V),
            mergeStep isContract fmt x e = jdel x e.1 :=
          fun x => by simp [mergeStep, hcond]
        simp only [hstep]
        apply jdel_of_none
        rw [jget_mergeHolders_notMem _ _ _ _ _ hnd.1]
        exact jget_jdel_self _ _
    rw [mergeHolders_cons, mergeHolders_cons, hM, ih _ hnd.2]

/-- Witness for `c9_merge_idempotent` on a concrete prior/fresh pair. -/
theorem c9_merge_idempotent_wit :
    mergeHolders (fun _ => false) formatBigIntToDecimal
        (mergeHolders (fun _ => false) formatBigIntToDecimal
          [("0xp", formatBigIntToDecimal 7)] [("0xa", 5), ("0xz", 0)])
        [("0xa", 5), ("0xz", 0)]
      = mergeHolders (fun _ => false) formatBigIntToDecimal
          [("0xp", formatBigIntToDecimal 7)] [("0xa", 5), ("0xz", 0)] :=
  c9_merge_idempotent (fun _ => false) formatBigIntToDecimal
    [("0xp", formatBigIntToDecimal 7)] [("0xa", 5), ("0xz", 0)] (by decide)

/-! ### C3: the holder invariant of the persisted output -/

/-- The balance the run associates with an address: the fresh-range balance if
the address occurs in the fresh computation (the merge overwrites), else the
prior balance, else zero. -/
def candidateBal (prior fresh : List (String × Int)) (a : String) : Int :=
  match jget fresh a with
  | some v => v
  | none => (jget prior a).getD 0

/-- The holder invariant: every entry has a nonzero balance and a non-contract
address. -/
def holdersInv (isContract : String → Bool) (m : List (String × Int)) : Prop :=
  ∀ p ∈ m, p.2 ≠ 0 ∧ isContract p.1 = false

/-- Full characterisation of a lookup in the merged map (balances viewed at the
integer level, i.e. `fmt = id`). -/
theorem jget_merge_char (isContract : String → Bool)
    (prior fresh : List (String × Int)) (hInv : holdersInv isContract prior)
    (hnd : (fresh.map Prod.fst).Nodup) (a : String) :
    jget (mergeHolders isContract (fun b => b) prior fresh) a =
      if candidateBal prior fresh a ≠ 0 ∧ isContract a = false
        then some (candidateBal prior fresh a) else none := by
  rcases hf : jget fresh a with _ | v
  · have ha : a ∉ fresh.map Prod.fst := jget_eq_none_iff.mp hf
    rw [jget_mergeHolders_notMem _ _ _ _ _ ha]
    unfold candidateBal
    rw [hf]
    rcases hp : jget prior a with _ | pv
    · simp
    · obtain ⟨h1, h2⟩ := hInv _ (jget_mem hp)
      simp [h1, h2]
  · rw [jget_mergeHolders_mem _ _ _ _ _ _ hnd hf]
    unfold candidateBal
    rw [hf]

/-- C3:  If the prior snapshot satisfies the holder invariant, then after
the merge an address is present in the output if and only if its balance is
nonzero and it is not classified as a contract; in particular zero-balance and
contract addresses never appear. -/
theorem c3_holder_invariant (isContract : String → Bool)
    (prior fresh : List (String × Int)) (hInv : holdersInv isContract prior)
    (hnd : (fresh.map Prod.fst).Nodup) (a : String) :
    (jget (mergeHolders isContract (fun b => b) prior fresh) a).isSome = true
      ↔ candidateBal prior fresh a ≠ 0 ∧ isContract a = false := by
  rw [jget_merge_char isContract prior fresh hInv hnd a]
  split
  · next h => simpa using h
  · next h => simpa using h

/-- Witness for `c3_holder_invariant`: a prior holder, a fresh non-contract
holder, a fresh contract address and a fresh zero balance. -/
theorem c3_holder_invariant_wit :
    ((jget (mergeHolders (fun s => s == "0xc") (fun b => b)
          [("0xp", 7)] [("0xa", 5), ("0xc", 3), ("0xz", 0)]) "0xa").isSome = true
      ↔ candidateBal [("0xp", 7)] [("0xa", 5), ("0xc", 3), ("0xz", 0)] "0xa" ≠ 0 ∧
        ("0xa" == "0xc") = false) :=
  c3_holder_invariant (fun s => s == "0xc") [("0xp", 7)]
    [("0xa", 5), ("0xc", 3), ("0xz", 0)]
    (by
      intro p hp
      rcases List.mem_singleton.mp hp with rfl
      exact ⟨by decide, by decide⟩)
    (by decide) "0xa"

/-! ### C6: the fungible ledger is invariant under event reordering -/

/-- The signed contribution of one transfer event to the balance of address `a`
(credit on receive, debit on send, zero-address legs skipped). -/
def erc20Contrib (a : String) (e : TransferEvent) : Int :=
  (if e.dst = a ∧ e.dst ≠ zeroAddress then e.value else 0) -
  (if e.src = a ∧ e.src ≠ zeroAddress then e.value else 0)

/-- Whether one transfer event creates or updates the balance entry of `a`. -/
def erc20Touches (a : String) (e : TransferEvent) : Bool :=
  (decide (e.src = a) && decide (e.src ≠ zeroAddress)) ||
  (decide (e.dst = a) && decide (e.dst ≠ zeroAddress))

/-- Net signed delta of an event sequence for address `a`. -/
def erc20Delta (a : String) (evs : List TransferEvent) : Int :=
  (evs.map (erc20Contrib a)).sum

theorem erc20Contrib_of_not_touches {a : String} {e : TransferEvent}
    (h : erc20Touches a e = false) : erc20Contrib a e = 0 := by
  simp only [erc20Touches, Bool.or_eq_false_iff, Bool.and_eq_false_iff,
    decide_eq_false_iff_not] at h
  unfold erc20Contrib
  rcases h with ⟨hs, hd⟩
  rw [if_neg (by tauto), if_neg (by tauto)]
  simp

theorem erc20Delta_of_not_any {a : String} {evs : List TransferEvent}
    (h : evs.any (erc20Touches a) = false) : erc20Delta a evs = 0 := by
  rw [List.any_eq_false] at h
  refine List.sum_eq_zero ?_
  intro x hx
  rw [List.mem_map] at hx
  obtain ⟨e, he, rfl⟩ := hx
  exact erc20Contrib_of_not_touches (by simpa using h e he)

theorem jget_erc20Step (m : List (String × Int)) (e : TransferEvent) (a : String) :
    jget (erc20Step m e) a =
      if erc20Touches a e
        then some ((jget m a).getD 0 + erc20Contrib a e)
        else jget m a := by
  by_cases hs0 : e.src = zeroAddress <;> by_cases hd0 : e.dst = zeroAddress <;>
    by_cases hsa : e.src = a <;> by_cases hda : e.dst = a <;>
      by_cases haz : a = zeroAddress <;>
        simp_all [erc20Step, erc20Touches, erc20Contrib] <;>
        try omega

theorem jget_erc20_foldl (evs : List TransferEvent) (m : List (String × Int)) (a : String) :
    jget (evs.foldl erc20Step m) a =
      if evs.any (erc20Touches a)
        then some ((jget m a).getD 0 + erc20Delta a evs)
        else jget m a := by
  induction evs generalizing m with
  | nil => simp [erc20Delta]
  | cons e es ih =>
    rw [List.foldl_cons, ih, jget_erc20Step]
    by_cases h1 : erc20Touches a e <;> by_cases h2 : es.any (erc20Touches a) = true
    · simp [erc20Delta, h1, h2, add_assoc]
    · have h2' : es.any (erc20Touches a) = false := by simpa using h2
      have hz := erc20Delta_of_not_any (a := a) h2'
      unfold erc20Delta at hz
      simp [erc20Delta, h1, h2', hz]
    · have h0 := erc20Contrib_of_not_touches (a := a) (e := e) (by simpa using h1)
      simp [erc20Delta, h1, h2, h0]
    · have h2' : es.any (erc20Touches a) = false := by simpa using h2
      simp [h1, h2']

/-- C6:  The fungible ledger depends only on the multiset of transfer
events: any two event sequences that are permutations of each other produce
extensionally identical balance maps. -/
theorem c6_perm_invariant (evs1 evs2 : List TransferEvent) (h : evs1.Perm evs2)
    (a : String) :
    jget (getERC20Holders evs1) a = jget (getERC20Holders evs2) a := by
  unfold getERC20Holders
  rw [jget_erc20_foldl, jget_erc20_foldl]
  have hany : evs1.any (erc20Touches a) = evs2.any (erc20Touches a) :=
    Bool.eq_iff_iff.mpr (by simp [List.any_eq_true, h.mem_iff])
  have hdelta : erc20Delta a evs1 = erc20Delta a evs2 :=
    (h.map (erc20Contrib a)).sum_eq
  rw [hany, hdelta]

/-- Witness for `c6_perm_invariant`: the two orderings of a mint and a transfer. -/
theorem c6_perm_invariant_wit :
    jget (getERC20Holders
        [⟨"0xa", "0xb", 4⟩, ⟨zeroAddress, "0xa", 10⟩]) "0xa"
      = jget (getERC20Holders
        [⟨zeroAddress, "0xa", 10⟩, ⟨"0xa", "0xb", 4⟩]) "0xa" :=
  c6_perm_invariant _ _ (List.Perm.swap _ _ _) "0xa"

/-! ### C7: single-owner ledger replay -/

/-- C7:  Replaying `mint(id 1 → 0xa)` (a transfer from the zero address)
followed by `transfer(id 1, 0xa → 0xb)` through the single-owner ledger leaves
token 1 owned by `0xb`; `0xa` is absent from the holder-count map (count 0) and
`0xb` holds exactly one token. -/
theorem c7_single_owner_replay :
    jget (erc721Owners [⟨zeroAddress, "0xa", 1⟩, ⟨"0xa", "0xb", 1⟩]) (natToString 1)
        = some "0xb" ∧
    jget (getERC721Holders [⟨zeroAddress, "0xa", 1⟩, ⟨"0xa", "0xb", 1⟩]) "0xa" = none ∧
    jget (getERC721Holders [⟨zeroAddress, "0xa", 1⟩, ⟨"0xa", "0xb", 1⟩]) "0xb" = some 1 := by
  refine ⟨?_, ?_, ?_⟩ <;> decide

/-! ### C5: a batch transfer is balance-equivalent to its positional singles -/

/-- The positional single transfers of a batch event. -/
def batchToSingles (src dst : String) (ids : List Nat) (values : List Int) :
    List SingleTransferEvent :=
  (ids.zip values).map (fun iv => ⟨src, dst, iv.1, iv.2⟩)

/-- Processing one batch pair is literally the single-transfer update (the two
`forEach` bodies at lines 205-219 and 223-237 perform identical map updates). -/
theorem applyBatchPair_eq_single (src dst : String)
    (balances : List (String × List (String × Int))) (iv : Nat × Int) :
    applyBatchPair src dst balances iv
      = applyTransferSingle balances ⟨src, dst, iv.1, iv.2⟩ := rfl

/-- C5:  For every batch event whose `ids` and `values` arrays have equal
length, the multi-token ledger assigns exactly the same resulting per-address
balances to the batch as to the corresponding sequence of positional single
transfers. -/
theorem c5_batch_equiv_singles (src dst : String) (ids : List Nat) (values : List Int)
    (h : ids.length = values.length) :
    getERC1155Holders [] [⟨src, dst, ids, values⟩]
      = getERC1155Holders (batchToSingles src dst ids values) [] := by
  unfold getERC1155Holders batchToSingles
  simp only [List.foldl_nil, List.foldl_cons, applyTransferBatch, List.foldl_map]
  rfl

/-- Witness for `c5_batch_equiv_singles`: the batch `ids = [1, 2]`,
`values = [5, 3]` from `0xa` to `0xb` against the two single transfers
`(1, 5)` and `(2, 3)`. -/
theorem c5_batch_equiv_singles_wit :
    getERC1155Holders [] [⟨"0xa", "0xb", [1, 2], [5, 3]⟩]
      = getERC1155Holders (batchToSingles "0xa" "0xb" [1, 2] [5, 3]) [] :=
  c5_batch_equiv_singles "0xa" "0xb" [1, 2] [5, 3] (by decide)

/-! ### C2 / C8: fetch windows and the control flow of `main` -/

theorem coveredB_windowsFuel (fuel : Nat) :
    ∀ i toBlock b, toBlock + 1 - i ≤ fuel →
      (coveredB (windowsFuel fuel i toBlock) b = true ↔ i ≤ b ∧ b ≤ toBlock) := by
  induction fuel with
  | zero =>
    intro i toBlock b hf
    rw [windowsFuel]
    constructor
    · intro hc
      simp [coveredB] at hc
    · intro hc
      omega
  | succ f ih =>
    intro i toBlock b hf
    rw [windowsFuel]
    by_cases hi : i ≤ toBlock
    · rw [if_pos hi]
      have ihc := ih (i + 1000) toBlock b (by omega)
      simp only [coveredB, List.any_cons, Bool.or_eq_true, Bool.and_eq_true,
        decide_eq_true_eq] at ihc ⊢
      rw [ihc]
      omega
    · rw [if_neg hi]
      constructor
      · intro hc
        simp [coveredB] at hc
      · intro hc
        omega

/-- The windows fetched by `getPastEvents fromBlock toBlock` cover exactly the
inclusive range `[fromBlock, toBlock]`: the first window starts at `fromBlock`
itself. -/
theorem coveredB_windows (fromBlock toBlock b : Nat) :
    coveredB (windows fromBlock toBlock) b = true ↔ fromBlock ≤ b ∧ b ≤ toBlock :=
  coveredB_windowsFuel _ _ _ _ (Nat.le_refl _)

/-- The run environment of the C2 scenario: a cached snapshot with
`lastCheckedBlock = 100` and a verified deployment block, refresh disabled. -/
def envC2 : RunEnv where
  snapshot := some ⟨100, some 50⟩
  verifyOk := true
  scanResult := none
  refresh := false
  startingBlock := 50
  currentBlock := 200
  contractType := some TokenType.ERC20

/-- C2, counterexample:  With a cached snapshot carrying
`lastCheckedBlock = 100`, a verified deployment block and refresh disabled, the
run resumes from block 100 itself: the first fetch window includes block 100,
contradicting the claim that only blocks strictly greater than 100 are fetched. -/
theorem c2_cex :
    (planRun envC2).fromBlock = some 100 ∧
    coveredB (windows 100 envC2.currentBlock) 100 = true ∧ ¬ 100 < 100 := by
  refine ⟨by decide, by decide, by omega⟩

/-- C2, amended:  With a cached snapshot (verified deployment block, refresh
disabled) the run resumes from `fromBlock = lastCheckedBlock`, and the windowed
fetch covers exactly the blocks `b` with `lastCheckedBlock ≤ b ≤ currentBlock` —
block `lastCheckedBlock` (100 in the claim's scenario) is fetched again, all
earlier blocks are skipped. -/
theorem c2_fetch_range (env : RunEnv) (lcb d : Nat)
    (hsnap : env.snapshot = some ⟨lcb, some d⟩) (hd : d ≠ 0)
    (hver : env.verifyOk = true) (href : env.refresh = false) :
    (planRun env).fromBlock = some lcb ∧
    ∀ b, coveredB (windows lcb env.currentBlock) b = true ↔
      lcb ≤ b ∧ b ≤ env.currentBlock := by
  constructor
  · cases htt : env.contractType <;>
      simp [planRun, hsnap, href, hver, truthyOpt, hd, htt]
  · intro b
    exact coveredB_windows lcb env.currentBlock b

/-- Witness for `c2_fetch_range` in the claim's scenario
(`lastCheckedBlock = 100`): block 100 itself is covered. -/
theorem c2_fetch_range_wit :
    (planRun envC2).fromBlock = some 100 ∧
    (coveredB (windows 100 envC2.currentBlock) 100 = true ↔
      100 ≤ 100 ∧ 100 ≤ envC2.currentBlock) :=
  ⟨(c2_fetch_range envC2 100 50 rfl (by decide) rfl rfl).1,
    (c2_fetch_range envC2 100 50 rfl (by decide) rfl rfl).2 100⟩

/-- The run environment of the C8 scenario: no cached snapshot and a
deployment scan that finds nothing. -/
def envC8 : RunEnv where
  snapshot := none
  verifyOk := false
  scanResult := none
  refresh := false
  startingBlock := 0
  currentBlock := 50
  contractType := some TokenType.ERC20

/-- C8, counterexample:  With no prior snapshot and a failed deployment
scan (`getDeploymentBlock` returns `null`), the run does *not* abort: `main`
never checks the scan result, proceeds to fetch events (with the `null`
`fromBlock`, which the loop arithmetic coerces to 0, so the fetch covers the
whole chain) and writes a snapshot whose `deploymentBlock` is `null`. -/
theorem c8_cex :
    (planRun envC8).aborted = false ∧
    (planRun envC8).wroteSnapshot = true ∧
    (planRun envC8).fromBlock = none ∧
    (planRun envC8).outDeploymentBlock = none ∧
    coveredB (windows ((planRun envC8).fromBlock.getD 0) envC8.currentBlock) 0 = true := by
  refine ⟨by decide, by decide, by decide, by decide, by decide⟩

/-- C8, amended:  A not-found deployment scan is never fatal: whenever the
contract classifies as one of the three standards, the run continues and writes
a snapshot, whether or not a prior snapshot supplies a verified deployment
block.  The scan runs (and can come back `null`) on exactly two paths, and the
theorem settles both: with no prior snapshot (lines 365-372), `fromBlock` is
the `null` scan result itself (numerically coerced to 0 by the fetch loop) and
the persisted `deploymentBlock` is `null`; with a prior snapshot whose truthy
cached deployment block fails verification (the stale-cache rescan of line
362), `fromBlock` keeps its initial value `startingBlock` (line 342) and the
persisted `deploymentBlock` is again the `null` rescan result. -/
theorem c8_not_found_continues (env : RunEnv) (tt : TokenType)
    (hscan : env.scanResult = none) (htype : env.contractType = some tt) :
    ((planRun env).aborted = false ∧ (planRun env).wroteSnapshot = true) ∧
    (env.snapshot = none →
      (planRun env).fromBlock = none ∧
      (planRun env).outDeploymentBlock = none) ∧
    (∀ data, env.snapshot = some data → truthyOpt data.deploymentBlock = true →
      env.verifyOk = false →
      (planRun env).fromBlock = some env.startingBlock ∧
      (planRun env).outDeploymentBlock = none) := by
  refine ⟨?_, ?_, ?_⟩
  · constructor <;> simp [planRun, htype]
  · intro hsnap
    constructor <;> simp [planRun, htype, hsnap, hscan]
  · intro data hdata htruthy hver
    constructor <;> simp [planRun, htype, hdata, htruthy, hver, hscan]

/-- The run environment of the stale-cache variant of the C8 scenario: a prior
snapshot whose cached deployment block fails verification, and a rescan that
finds nothing. -/
def envC8b : RunEnv where
  snapshot := some ⟨100, some 50⟩
  verifyOk := false
  scanResult := none
  refresh := false
  startingBlock := 7
  currentBlock := 50
  contractType := some TokenType.ERC20

/-- Witness for `c8_not_found_continues`, exercising both scan paths: the
no-snapshot environment `envC8` and the failed-verification environment
`envC8b`. -/
theorem c8_not_found_continues_wit :
    (planRun envC8).aborted = false ∧
    (planRun envC8).wroteSnapshot = true ∧
    (planRun envC8).fromBlock = none ∧
    (planRun envC8).outDeploymentBlock = none ∧
    (planRun envC8b).aborted = false ∧
    (planRun envC8b).wroteSnapshot = true ∧
    (planRun envC8b).fromBlock = some 7 ∧
    (planRun envC8b).outDeploymentBlock = none := by
  obtain ⟨⟨h1, h2⟩, h3, _⟩ := c8_not_found_continues envC8 TokenType.ERC20 rfl rfl
  obtain ⟨⟨g1, g2⟩, _, g4⟩ := c8_not_found_continues envC8b TokenType.ERC20 rfl rfl
  obtain ⟨h5, h6⟩ := h3 rfl
  obtain ⟨g5, g6⟩ := g4 ⟨100, some 50⟩ rfl (by decide) rfl
  exact ⟨h1, h2, h5, h6, g1, g2, g5, g6⟩

/-! ### C4: order of the persisted holder list -/

theorem holderLE_trans {V : Type} (pval : V → ℚ) :
    ∀ x y z : String × V, holderLE pval x y → holderLE pval y z → holderLE pval x z := by
  intro x y z h1 h2
  simp only [holderLE, decide_eq_true_eq] at h1 h2 ⊢
  exact le_trans h2 h1

theorem holderLE_total {V : Type} (pval : V → ℚ) :
    ∀ x y : String × V, holderLE pval x y || holderLE pval y x := by
  intro x y
  rcases le_total (pval y.2) (pval x.2) with h | h <;> simp [holderLE, h]

/-- C4, counterexample:  Two holders with equal parsed balances (e.g. two
addresses each owning one token, a routine ERC-721 output) survive the sort as
an adjacent pair with *equal* parsed values, so the persisted list is not
strictly descending. -/
theorem c4_cex :
    ¬ List.Pairwise (fun x y => countVal y.2 < countVal x.2)
        (sortHolders countVal [("0xa", 1), ("0xb", 1)]) := by
  have heq : sortHolders countVal [("0xa", 1), ("0xb", 1)] = [("0xa", 1), ("0xb", 1)] := by
    unfold sortHolders
    apply List.mergeSort_of_sorted
    simp [List.pairwise_cons, holderLE]
  rw [heq]
  intro hp
  have h1 := (List.pairwise_cons.mp hp).1 ("0xb", 1) (List.mem_singleton.mpr rfl)
  exact absurd h1 (lt_irrefl _)

/-- C4, amended:  The persisted holder list is *weakly* descending by
parsed numeric balance — for every adjacent pair the earlier entry's parsed
balance is greater than or equal to the later one's (strictness necessarily
fails on ties) — and the sort is stable: entries with equal parsed balances
keep their pre-sort relative order. -/
theorem c4_sort_descending_stable {V : Type} (pval : V → ℚ)
    (entries : List (String × V)) :
    List.Pairwise (fun x y => pval y.2 ≤ pval x.2) (sortHolders pval entries) ∧
    ∀ x y, List.Sublist [x, y] entries → pval x.2 = pval y.2 →
      List.Sublist [x, y] (sortHolders pval entries) := by
  constructor
  · exact (List.sorted_mergeSort (holderLE_trans pval) (holderLE_total pval)
      entries).imp (fun h => by simpa [holderLE] using h)
  · intro x y hsub heq
    exact List.pair_sublist_mergeSort (holderLE_trans pval) (holderLE_total pval)
      (by simp [holderLE, heq]) hsub

/-- Witness for `c4_sort_descending_stable` on a concrete tied list. -/
theorem c4_sort_descending_stable_wit :
    List.Pairwise (fun x y => countVal y.2 ≤ countVal x.2)
        (sortHolders countVal [("0xa", 1), ("0xb", 1)]) ∧
    List.Sublist [("0xa", (1 : Int)), ("0xb", 1)] (sortHolders countVal [("0xa", 1), ("0xb", 1)]) :=
  ⟨(c4_sort_descending_stable countVal [("0xa", 1), ("0xb", 1)]).1,
    (c4_sort_descending_stable countVal [("0xa", 1), ("0xb", 1)]).2
      ("0xa", 1) ("0xb", 1) (List.Sublist.refl _) rfl⟩

/-! ### C10: the persist/reload round trip of balance values -/

/-- Value of a least-significant-first digit list. -/
def lsdVal : List Nat → Nat
  | [] => 0
  | d :: ds => d + 10 * lsdVal ds

theorem natDigitsRev_spec (fuel : Nat) :
    ∀ n, n < fuel →
      natDigitsRev fuel n ≠ [] ∧ (∀ d ∈ natDigitsRev fuel n, d < 10) ∧
        lsdVal (natDigitsRev fuel n) = n := by
  induction fuel with
  | zero => intro n hn; omega
  | succ f ih =>
    intro n hn
    rw [natDigitsRev]
    by_cases h10 : n < 10
    · rw [if_pos h10]
      refine ⟨by simp, ?_, by simp [lsdVal]⟩
      intro d hd
      rw [List.mem_singleton] at hd
      omega
    · rw [if_neg h10]
      have hdiv : n / 10 < f := by
        have h1 : n / 10 < n := Nat.div_lt_self (by omega) (by omega)
        omega
      obtain ⟨h1, h2, h3⟩ := ih (n / 10) hdiv
      refine ⟨by simp, ?_, ?_⟩
      · intro d hd
        rcases List.mem_cons.mp hd with rfl | hd
        · exact Nat.mod_lt _ (by omega)
        · exact h2 d hd
      · simp only [lsdVal, h3]
        omega

/-- Value of a most-significant-first digit list. -/
def msdVal (l : List Nat) : Nat := l.foldl (fun a d => 10 * a + d) 0

theorem msdVal_reverse (r : List Nat) : msdVal r.reverse = lsdVal r := by
  induction r with
  | nil => rfl
  | cons d r ih =>
    unfold msdVal at ih ⊢
    rw [List.reverse_cons, List.foldl_append]
    simp only [List.foldl_cons, List.foldl_nil, lsdVal]
    rw [ih]
    omega

theorem msdVal_natToDigitList (n : Nat) : msdVal (natToDigitList n) = n := by
  unfold natToDigitList
  rw [msdVal_reverse]
  exact (natDigitsRev_spec (n + 1) n (by omega)).2.2

theorem natToDigitList_ne_nil (n : Nat) : natToDigitList n ≠ [] := by
  unfold natToDigitList
  simp only [ne_eq, List.reverse_eq_nil_iff]
  exact (natDigitsRev_spec (n + 1) n (by omega)).1

theorem natToDigitList_lt_ten (n : Nat) : ∀ d ∈ natToDigitList n, d < 10 := by
  intro d hd
  rw [natToDigitList, List.mem_reverse] at hd
  exact (natDigitsRev_spec (n + 1) n (by omega)).2.1 d hd

theorem digitChar_toNat {d : Nat} (h : d < 10) : (digitChar d).toNat = 48 + d := by
  interval_cases d <;> rfl

theorem digitChar_isDigit {d : Nat} (h : d < 10) : (digitChar d).isDigit = true := by
  interval_cases d <;> rfl

theorem digitsToNat_map_digitChar (l : List Nat) (h : ∀ d ∈ l, d < 10) :
    digitsToNat (l.map digitChar) = msdVal l := by
  unfold digitsToNat msdVal
  rw [List.foldl_map]
  apply List.foldl_ext
  intro a d hd
  rw [digitChar_toNat (h d hd)]
  omega

theorem foldl_digit_replicate_zero (k : Nat) :
    List.foldl (fun a c => 10 * a + (c.toNat - 48)) 0 (List.replicate k '0') = 0 := by
  induction k with
  | zero => rfl
  | succ k ih =>
    rw [List.replicate_succ, List.foldl_cons]
    have h0 : (10 * 0 + ('0'.toNat - 48)) = 0 := rfl
    rw [h0]
    exact ih

theorem digitsToNat_replicate_zero_append (k : Nat) (cs : List Char) :
    digitsToNat (List.replicate k '0' ++ cs) = digitsToNat cs := by
  unfold digitsToNat
  rw [List.foldl_append, foldl_digit_replicate_zero]

theorem removeFirst_append_of_not_mem (c : Char) (l1 l2 : List Char) (h : c ∉ l1) :
    removeFirst c (l1 ++ c :: l2) = l1 ++ l2 := by
  induction l1 with
  | nil => simp [removeFirst]
  | cons x xs ih =>
    have hx : ¬ x = c := fun hh => h (by rw [hh]; exact List.mem_cons_self c xs)
    rw [List.cons_append, removeFirst, if_neg hx, List.cons_append,
      ih (fun hm => h (List.mem_cons_of_mem x hm))]

theorem removeFirst_of_not_mem (c : Char) (l : List Char) (h : c ∉ l) :
    removeFirst c l = l := by
  induction l with
  | nil => rfl
  | cons x xs ih =>
    have hx : ¬ x = c := fun hh => h (by rw [hh]; exact List.mem_cons_self c xs)
    rw [removeFirst, if_neg hx, ih (fun hm => h (List.mem_cons_of_mem x hm))]

theorem dropWhile_append_of_all {p : Char → Bool} (l1 l2 : List Char)
    (h : ∀ x ∈ l1, p x = true) :
    (l1 ++ l2).dropWhile p = l2.dropWhile p := by
  induction l1 with
  | nil => rfl
  | cons x xs ih =>
    rw [List.cons_append, List.dropWhile_cons_of_pos (h x (List.mem_cons_self x xs))]
    exact ih (fun y hy => h y (List.mem_cons_of_mem x hy))

/-- Parsing with `BigInt` succeeds on a nonempty all-digit string and returns its value. -/
theorem jsBigIntParse_all_digits (l : List Char) (hne : l ≠ [])
    (hall : ∀ c ∈ l, c.isDigit = true) :
    jsBigIntParse ⟨l⟩ = some (digitsToNat l : Int) := by
  unfold jsBigIntParse
  cases l with
  | nil => exact absurd rfl hne
  | cons c rest =>
    have hcdig : c.isDigit = true := hall c (List.mem_cons_self c rest)
    have hc1 : ¬ c = '-' := by
      intro hh
      rw [hh] at hcdig
      exact absurd hcdig (by decide)
    have hc2 : ¬ c = '+' := by
      intro hh
      rw [hh] at hcdig
      exact absurd hcdig (by decide)
    simp only [if_neg hc1, if_neg hc2]
    rw [if_pos (List.all_eq_true.mpr hall)]

/-- C10, counterexample:  A negative fungible balance — which the merge can
persist after an incremental run, since a fresh range's signed delta can be
negative — does not survive the persist/reload round trip: `formatBigIntToDecimal`
pads the `-` sign with zeroes (`-5` becomes `"0.0000000000000000-5"`), so the
loader's `BigInt` call rejects the stripped digits and the reload throws. -/
theorem c10_cex :
    snapshotRoundTrip (formatBigIntToDecimal (-5)) = none ∧
    snapshotRoundTrip (formatBigIntToDecimal (-5)) ≠ some (formatBigIntToDecimal (-5)) := by
  constructor
  · decide
  · decide

/-- C10, amended:  For every *nonnegative* persisted balance the round trip
is the identity: stripping the decimal point, parsing with `BigInt` and
re-formatting returns exactly the persisted string, `formatBigIntToDecimal`
emits exactly 18 fractional digits, and the plain integer (count) persists and
reloads losslessly as well. -/
theorem c10_roundtrip_nonneg (b : Int) (hb : 0 ≤ b) :
    snapshotRoundTrip (formatBigIntToDecimal b) = some (formatBigIntToDecimal b) ∧
    frac18 (formatBigIntToDecimal b) = true ∧
    jsBigIntParse (replaceDot (intToString b)) = some b := by
  have hb' : ¬ b < 0 := not_lt.mpr hb
  have hbn : (b.toNat : Int) = b := Int.toNat_of_nonneg hb
  set n := b.toNat with hn
  set cs : List Char := (natToDigitList n).map digitChar with hcs
  have hcs_digits : ∀ c ∈ cs, c.isDigit = true := by
    intro c hc
    rw [hcs, List.mem_map] at hc
    obtain ⟨d, hd, rfl⟩ := hc
    exact digitChar_isDigit (natToDigitList_lt_ten n d hd)
  have hcs_ne : cs ≠ [] := by
    rw [hcs]
    simp only [ne_eq, List.map_eq_nil_iff]
    exact natToDigitList_ne_nil n
  have hcs_val : digitsToNat cs = n := by
    rw [hcs, digitsToNat_map_digitChar _ (natToDigitList_lt_ten n),
      msdVal_natToDigitList]
  have hstr : intToString b = ⟨cs⟩ := by
    unfold intToString
    rw [if_neg hb']
    rfl
  set pad : List Char := List.replicate (19 - cs.length) '0' ++ cs with hpad
  have hpad_digits : ∀ c ∈ pad, c.isDigit = true := by
    intro c hc
    rw [hpad, List.mem_append] at hc
    rcases hc with hc | hc
    · rw [List.eq_of_mem_replicate hc]
      decide
    · exact hcs_digits c hc
  have hcs_pos : 1 ≤ cs.length := List.length_pos.mpr hcs_ne
  have hpadlen : 19 ≤ pad.length := by
    rw [hpad, List.length_append, List.length_replicate]
    omega
  have hpad_ne : pad ≠ [] := by
    intro hh
    rw [hh] at hpadlen
    simp at hpadlen
  have hpad_val : digitsToNat pad = n := by
    rw [hpad, digitsToNat_replicate_zero_append, hcs_val]
  have hpadded : (padStart (intToString b) 19 '0').data = pad := by
    rw [hstr, hpad]
    rfl
  set ip := pad.take (pad.length - 18) with hip
  set dp := pad.drop (pad.length - 18) with hdp
  have hformat : (formatBigIntToDecimal b).data = ip ++ '.' :: dp := by
    unfold formatBigIntToDecimal
    simp only [hpadded]
  have hip_digits : ∀ c ∈ ip, c.isDigit = true :=
    fun c hc => hpad_digits c (List.take_subset _ _ hc)
  have hdp_digits : ∀ c ∈ dp, c.isDigit = true :=
    fun c hc => hpad_digits c (List.drop_subset _ _ hc)
  have hdplen : dp.length = 18 := by
    rw [hdp, List.length_drop]
    omega
  have hdot_ip : '.' ∉ ip := by
    intro hdot
    exact absurd (hip_digits '.' hdot) (by decide)
  refine ⟨?_, ?_, ?_⟩
  · unfold snapshotRoundTrip
    have hrd : replaceDot (formatBigIntToDecimal b) = ⟨pad⟩ := by
      unfold replaceDot
      rw [hformat, removeFirst_append_of_not_mem _ _ _ hdot_ip]
      rw [hip, hdp, List.take_append_drop]
    rw [hrd, jsBigIntParse_all_digits pad hpad_ne hpad_digits, hpad_val, hbn]
    rfl
  · unfold frac18
    rw [hformat, dropWhile_append_of_all ip ('.' :: dp)
        (fun x hx => by
          have hd := hip_digits x hx
          cases hxc : x == '.' with
          | true =>
            rw [beq_iff_eq] at hxc
            rw [hxc] at hd
            exact absurd hd (by decide)
          | false => simp [bne, hxc]),
      List.dropWhile_cons_of_neg (by decide)]
    simp only [List.drop_succ_cons, List.drop_zero, Bool.and_eq_true, decide_eq_true_eq]
    exact ⟨by rw [hdplen], List.all_eq_true.mpr hdp_digits⟩
  · rw [hstr]
    unfold replaceDot
    have hdot_cs : '.' ∉ cs := by
      intro hdot
      exact absurd (hcs_digits '.' hdot) (by decide)
    have : (String.mk cs).data = cs := rfl
    rw [this, removeFirst_of_not_mem _ _ hdot_cs,
      jsBigIntParse_all_digits cs hcs_ne hcs_digits, hcs_val, hbn]

/-- Witness for `c10_roundtrip_nonneg` at balance 5. -/
theorem c10_roundtrip_nonneg_wit :
    snapshotRoundTrip (formatBigIntToDecimal 5) = some (formatBigIntToDecimal 5) ∧
    frac18 (formatBigIntToDecimal 5) = true ∧
    jsBigIntParse (replaceDot (intToString 5)) = some 5 :=
  c10_roundtrip_nonneg 5 (by decide)

end SankoSnapshot
